import Mathlib

/-!
Verification development for the serialization/persistence layer of the
`param` declarative-attribute framework, as described in its documentation
(`doc/user_guide/Serialization_and_Persistence.ipynb`).  The repository
content under review contains the documentation and build configuration but
not the serializer implementation itself, so the three codecs (snapshot,
interchange, regeneration) are modelled from the specification text and the
notebook walkthrough.

Modelling conventions:
- JSON texts are represented by their parsed form (`JValue`); a serialized
  Parameterized object is the association list of its top-level JSON object.
- The fixed date-time string format is "distinguishable from a plain string"
  per the spec, so it is modelled by a dedicated `JValue.jdate` constructor
  carrying the exact timestamp.
- Numbers are rationals; JSON distinguishes integer literals from decimal
  literals, mirrored by `jint` / `jnum`.
- List and tabular cell elements are scalar interchange values (`SVal`),
  matching the flat element values used throughout the notebook examples.
-/

namespace Param

/-- Scalar interchange values: the element values allowed inside list-like
and tabular parameter values. -/
inductive SVal where
  | snull
  | sbool (b : Bool)
  | sint (n : ℤ)
  | snum (q : ℚ)
  | sstr (s : String)
  | sdate (t : ℤ)
deriving DecidableEq

/-- Runtime values a parameter (field) of a structured object can hold.
`vrange` is the paired-bound (tuple) form of a numeric interval; `vtab` is
tabular data as column labels plus rows of cells; `vobj` is a reference to a
nested structured object, identified by its qualified type path. -/
inductive PValue where
  | vnull
  | vbool (b : Bool)
  | vint (n : ℤ)
  | vnum (q : ℚ)
  | vstr (s : String)
  | vdate (t : ℤ)
  | vrange (lo hi : ℚ)
  | vlist (xs : List SVal)
  | vtab (cols : List String) (rows : List (List SVal))
  | vobj (path : String)
deriving DecidableEq

/-- Parsed JSON values.  `jdate` models the fixed, documented date-time
string encoding, which the spec requires to be distinguishable from a plain
string. -/
inductive JValue where
  | jnull
  | jbool (b : Bool)
  | jint (n : ℤ)
  | jnum (q : ℚ)
  | jstr (s : String)
  | jdate (t : ℤ)
  | jarr (xs : List JValue)
  | jobj (entries : List (String × JValue))

/-- Element-type constraints for list-like kinds (`item_type`). -/
inductive SKind where
  | ebool
  | eint
  | enum
  | estr
  | edate
deriving DecidableEq

/-- Declared field kinds with their constraints: bounds carry inclusivity
flags; list kinds carry an optional element-type constraint; `knested` is a
field holding a nested structured object (ClassSelector-like). -/
inductive PKind where
  | kbool
  | kint (lo hi : Option ℤ) (inclLo inclHi : Bool)
  | knum (lo hi : Option ℚ) (inclLo inclHi : Bool)
  | kstr
  | kdate
  | krange (lo hi : Option ℚ) (inclLo inclHi : Bool)
  | klist (item : Option SKind)
  | ktab
  | knested
deriving DecidableEq

/-- Modelled from the spec: a field declaration owned by the type — name,
kind with constraints, default value, allowed-null flag, the per-field
snapshot opt-out flag (`pickle_default_value`), and the "always treat as
instance-owned" flag (`instantiate`). -/
structure PField where
  name : String
  kind : PKind
  default : PValue
  allow_None : Bool
  pickle_default_value : Bool
  instantiate : Bool
deriving DecidableEq

/-- Modelled from the spec: a structured-object type (Parameterized class):
a qualified path identifying it and its declared fields in declaration
order. -/
structure PClass where
  path : String
  name : String
  fields : List PField
deriving DecidableEq

/-- Modelled from the spec: a structured-object instance: its class, the
per-instance field values (absent names inherit the type-level default),
and the non-field attributes held directly on the instance. -/
structure PInstance where
  cls : PClass
  vals : List (String × PValue)
  attrs : List (String × PValue)
deriving DecidableEq

/-- Association-list lookup used for instance state and snapshot blobs. -/
def lookupVal : List (String × PValue) → String → Option PValue
  | [], _ => none
  | (m, v) :: rest, n => if m = n then some v else lookupVal rest n

/-- Current value of a declared field on an instance: the explicitly set
value if present, else the type-level default. -/
def currentValue (inst : PInstance) (f : PField) : PValue :=
  (lookupVal inst.vals f.name).getD f.default

/-- Bounds check for an integer against optional bounds with inclusivity
flags. -/
def intBoundsOk (lo hi : Option ℤ) (inclLo inclHi : Bool) (n : ℤ) : Bool :=
  (match lo with
   | none => true
   | some l => if inclLo then decide (l ≤ n) else decide (l < n)) &&
  (match hi with
   | none => true
   | some h => if inclHi then decide (n ≤ h) else decide (n < h))

/-- Bounds check for a rational against optional bounds with inclusivity
flags. -/
def ratBoundsOk (lo hi : Option ℚ) (inclLo inclHi : Bool) (q : ℚ) : Bool :=
  (match lo with
   | none => true
   | some l => if inclLo then decide (l ≤ q) else decide (l < q)) &&
  (match hi with
   | none => true
   | some h => if inclHi then decide (q ≤ h) else decide (q < h))

/-- Element-type constraint check for list elements. -/
def elemMatches : SKind → SVal → Bool
  | .ebool, .sbool _ => true
  | .eint, .sint _ => true
  | .enum, .sint _ => true
  | .enum, .snum _ => true
  | .estr, .sstr _ => true
  | .edate, .sdate _ => true
  | _, _ => false

/-- Constraint check of a non-null value against a declared kind: the value
must have the kind's shape and satisfy its bounds / element constraints. -/
def validateKind : PKind → PValue → Bool
  | .kbool, .vbool _ => true
  | .kint lo hi a b, .vint n => intBoundsOk lo hi a b n
  | .knum lo hi a b, .vint n => ratBoundsOk lo hi a b (n : ℚ)
  | .knum lo hi a b, .vnum q => ratBoundsOk lo hi a b q
  | .kstr, .vstr _ => true
  | .kdate, .vdate _ => true
  | .krange lo hi a b, .vrange x y => ratBoundsOk lo hi a b x && ratBoundsOk lo hi a b y
  | .klist none, .vlist _ => true
  | .klist (some ek), .vlist xs => xs.all (elemMatches ek)
  | .ktab, .vtab _ _ => true
  | .knested, .vobj _ => true
  | _, _ => false

/-- Modelled from the spec: full constraint check of a field's value — null
is accepted exactly when the field's allowed-null flag is set, otherwise
the value must satisfy the declared kind's constraints. -/
def validateField (f : PField) (v : PValue) : Bool :=
  match v with
  | .vnull => f.allow_None
  | v => validateKind f.kind v

/-- Field kinds with a defined interchange encoding: every kind except a
nested structured object. -/
def kindSupported : PKind → Bool
  | .knested => false
  | _ => true

/-- Errors of the interchange codec, per the spec's error taxonomy.
`validationError` carries the field name and the violated constraint. -/
inductive SerError where
  | unsupportedField (field : String)
  | unknownField (field : String)
  | validationError (field : String) (constraint : PKind)
deriving DecidableEq

/-- Encoding of a scalar interchange value to JSON. -/
def encodeSVal : SVal → JValue
  | .snull => .jnull
  | .sbool b => .jbool b
  | .sint n => .jint n
  | .snum q => .jnum q
  | .sstr s => .jstr s
  | .sdate t => .jdate t

/-- Modelled from the spec: the per-field-kind encoding rule of the
interchange codec (§4.2) — scalars to native JSON scalars, intervals to
two-element sequences, lists to element-encoding sequences, dates to the
fixed date-time string form, tabular data to column labels plus
list-of-lists, nested structured objects have no encoding (`none`). -/
def encodeVal : PValue → Option JValue
  | .vnull => some .jnull
  | .vbool b => some (.jbool b)
  | .vint n => some (.jint n)
  | .vnum q => some (.jnum q)
  | .vstr s => some (.jstr s)
  | .vdate t => some (.jdate t)
  | .vrange x y => some (.jarr [.jnum x, .jnum y])
  | .vlist xs => some (.jarr (xs.map encodeSVal))
  | .vtab cols rows =>
      some (.jobj [("columns", .jarr (cols.map JValue.jstr)),
                   ("data", .jarr (rows.map (fun r => .jarr (r.map encodeSVal))))])
  | .vobj _ => none

/-- Decoding of a JSON scalar back to a scalar interchange value. -/
def decodeSVal : JValue → Option SVal
  | .jnull => some .snull
  | .jbool b => some (.sbool b)
  | .jint n => some (.sint n)
  | .jnum q => some (.snum q)
  | .jstr s => some (.sstr s)
  | .jdate t => some (.sdate t)
  | _ => none

/-- Decoding of a JSON sequence of scalars. -/
def decodeSList : List JValue → Option (List SVal)
  | [] => some []
  | j :: js =>
      match decodeSVal j, decodeSList js with
      | some s, some ss => some (s :: ss)
      | _, _ => none

/-- Decoding of a JSON sequence of strings (tabular column labels). -/
def decodeStrList : List JValue → Option (List String)
  | [] => some []
  | .jstr s :: js =>
      match decodeStrList js with
      | some ss => some (s :: ss)
      | none => none
  | _ :: _ => none

/-- Decoding of a JSON sequence of rows (tabular cell data). -/
def decodeRows : List JValue → Option (List (List SVal))
  | [] => some []
  | .jarr r :: js =>
      match decodeSList r, decodeRows js with
      | some row, some rest => some (row :: rest)
      | _, _ => none
  | _ :: _ => none

/-- Modelled from the spec: the type-directed structural inversion of the
per-kind encoding rule — given the declared field kind, a two-element
sequence becomes a paired-bound value rather than a list, sequences become
lists for list kinds, the fixed date string becomes an exact timestamp, and
so on.  Returns `none` on a shape mismatch. -/
def decodeRaw : PKind → JValue → Option PValue
  | _, .jnull => some .vnull
  | .kbool, .jbool b => some (.vbool b)
  | .kint _ _ _ _, .jint n => some (.vint n)
  | .knum _ _ _ _, .jint n => some (.vint n)
  | .knum _ _ _ _, .jnum q => some (.vnum q)
  | .kstr, .jstr s => some (.vstr s)
  | .kdate, .jdate t => some (.vdate t)
  | .krange _ _ _ _, .jarr [.jnum x, .jnum y] => some (.vrange x y)
  | .klist _, .jarr js =>
      match decodeSList js with
      | some xs => some (.vlist xs)
      | none => none
  | .ktab, .jobj [("columns", .jarr cs), ("data", .jarr rs)] =>
      match decodeStrList cs, decodeRows rs with
      | some cols, some rows => some (.vtab cols rows)
      | _, _ => none
  | _, _ => none

/-- Modelled from the spec: decoding of one field from untrusted input —
the type-directed structural inversion followed by the field's own
constraint check; a shape mismatch or an out-of-constraint decoded value is
rejected with `ValidationError` carrying the field name and the violated
constraint, never silently coerced. -/
def decodeField (f : PField) (j : JValue) : Except SerError PValue :=
  match decodeRaw f.kind j with
  | none => .error (.validationError f.name f.kind)
  | some v => if validateField f v then .ok v else .error (.validationError f.name f.kind)

/-- Names of the fields declared on a class, in declaration order. -/
def declaredNames (cls : PClass) : List String :=
  cls.fields.map PField.name

/-- First name in a requested subset that is not declared on the class. -/
def firstUnknown (cls : PClass) : List String → Option String
  | [] => none
  | n :: ns => if n ∈ declaredNames cls then firstUnknown cls ns else some n

/-- Fields processed by a codec call: all declared fields, or the declared
fields named by the subset, kept in declaration order. -/
def selectedFields (cls : PClass) : Option (List String) → List PField
  | none => cls.fields
  | some ns => cls.fields.filter (fun f => f.name ∈ ns)

/-- Encoding of one field of an instance: fails with `UnsupportedFieldError`
on a field kind (or value) with no defined interchange encoding. -/
def encodeField (inst : PInstance) (f : PField) : Except SerError JValue :=
  if kindSupported f.kind then
    match encodeVal (currentValue inst f) with
    | some j => .ok j
    | none => .error (.unsupportedField f.name)
  else .error (.unsupportedField f.name)

/-- Encoding of a list of fields of an instance, in order, stopping at the
first failure. -/
def encodeFields (inst : PInstance) : List PField → Except SerError (List (String × JValue))
  | [] => .ok []
  | f :: fs =>
      match encodeField inst f with
      | .error e => .error e
      | .ok j =>
          match encodeFields inst fs with
          | .error e => .error e
          | .ok rest => .ok ((f.name, j) :: rest)

/-- Modelled from the spec: `serialize_parameters` of the interchange codec
— emits one encoded value per processed field (explicit value if set, else
the type default) as the top-level JSON object, given here in parsed form.
Unknown names in `subset` are rejected with `UnknownFieldError` before any
encoding work begins. -/
def serialize_parameters (inst : PInstance) (subset : Option (List String)) :
    Except SerError (List (String × JValue)) :=
  match subset with
  | none => encodeFields inst inst.cls.fields
  | some ns =>
      match firstUnknown inst.cls ns with
      | some n => .error (.unknownField n)
      | none => encodeFields inst (selectedFields inst.cls (some ns))

/-- Lookup of a declared field by name. -/
def findField (cls : PClass) (n : String) : Option PField :=
  cls.fields.find? (fun f => f.name = n)

/-- Decoding of the entries of the top-level JSON object, each directed by
the declared kind of the field it names. -/
def decodeEntries (cls : PClass) : List (String × JValue) → Except SerError (List (String × PValue))
  | [] => .ok []
  | (n, j) :: rest =>
      match findField cls n with
      | none => .error (.unknownField n)
      | some f =>
          match decodeField f j with
          | .error e => .error e
          | .ok v =>
              match decodeEntries cls rest with
              | .error e => .error e
              | .ok vs => .ok ((n, v) :: vs)

/-- Modelled from the spec: `deserialize_parameters` of the interchange
codec — type-directed decoding of the parsed interchange text into a
mapping from field name to value, validating every decoded value against
the field's declared constraints.  Unknown names in `subset` are rejected
with `UnknownFieldError` before any decoding work begins. -/
def deserialize_parameters (cls : PClass) (entries : List (String × JValue))
    (subset : Option (List String)) : Except SerError (List (String × PValue)) :=
  match subset with
  | none => decodeEntries cls entries
  | some ns =>
      match firstUnknown cls ns with
      | some n => .error (.unknownField n)
      | none => decodeEntries cls (entries.filter (fun e => e.1 ∈ ns))

/-- Portable schema fragments, one per interchange kind: a type tag with
bounds where the kind has them, an item schema for constrained lists, and
the tabular shape. -/
inductive Schema where
  | sBool
  | sInt (lo hi : Option ℤ) (inclLo inclHi : Bool)
  | sNum (lo hi : Option ℚ) (inclLo inclHi : Bool)
  | sStr
  | sDate
  | sRange (lo hi : Option ℚ) (inclLo inclHi : Bool)
  | sArr (item : Option Schema)
  | sTab

/-- Per-field schema fragment: the kind's schema plus the allowed-null
flag. -/
structure FSchema where
  nullable : Bool
  base : Schema

/-- Validation of a JSON scalar against a scalar schema fragment. -/
def validateScalarSchema : Schema → JValue → Bool
  | .sBool, .jbool _ => true
  | .sInt lo hi a b, .jint n => intBoundsOk lo hi a b n
  | .sNum lo hi a b, .jint n => ratBoundsOk lo hi a b (n : ℚ)
  | .sNum lo hi a b, .jnum q => ratBoundsOk lo hi a b q
  | .sStr, .jstr _ => true
  | .sDate, .jdate _ => true
  | _, _ => false

/-- Whether a JSON value is a scalar (a tabular cell). -/
def isScalarJ : JValue → Bool
  | .jarr _ => false
  | .jobj _ => false
  | _ => true

/-- Validation of a JSON value against a schema fragment. -/
def validateSchema : Schema → JValue → Bool
  | .sArr none, .jarr _ => true
  | .sArr (some s), .jarr js => js.all (validateScalarSchema s)
  | .sRange lo hi a b, .jarr [.jnum x, .jnum y] =>
      ratBoundsOk lo hi a b x && ratBoundsOk lo hi a b y
  | .sTab, .jobj [("columns", .jarr cs), ("data", .jarr rs)] =>
      cs.all (fun c => match c with | .jstr _ => true | _ => false) &&
      rs.all (fun r => match r with | .jarr cells => cells.all isScalarJ | _ => false)
  | s, j => validateScalarSchema s j

/-- Validation of a JSON value against a per-field schema fragment: null is
accepted exactly when the field is nullable. -/
def validateFSchema (s : FSchema) (j : JValue) : Bool :=
  match j with
  | .jnull => s.nullable
  | j => validateSchema s.base j

/-- Schema fragment for a list element-type constraint. -/
def elemSchema : SKind → Schema
  | .ebool => .sBool
  | .eint => .sInt none none true true
  | .enum => .sNum none none true true
  | .estr => .sStr
  | .edate => .sDate

/-- Modelled from the spec: the per-kind schema fragment emitted by the
interchange codec's schema generator — a constraint description (type tag,
bounds, element constraints); a nested structured-object kind has none. -/
def schemaOfKind : PKind → Option Schema
  | .kbool => some .sBool
  | .kint lo hi a b => some (.sInt lo hi a b)
  | .knum lo hi a b => some (.sNum lo hi a b)
  | .kstr => some .sStr
  | .kdate => some .sDate
  | .krange lo hi a b => some (.sRange lo hi a b)
  | .klist none => some (.sArr none)
  | .klist (some ek) => some (.sArr (some (elemSchema ek)))
  | .ktab => some .sTab
  | .knested => none

/-- Kinds whose values are guaranteed representable and round-trippable
under the interchange rules; an unconstrained container is not. -/
def kindSafe : PKind → Bool
  | .klist none => false
  | .knested => false
  | _ => true

/-- Schema fragment for one declared field; fails with
`UnsupportedFieldError` on a kind with no defined encoding. -/
def schemaField (f : PField) : Except SerError FSchema :=
  match schemaOfKind f.kind with
  | some s => .ok ⟨f.allow_None, s⟩
  | none => .error (.unsupportedField f.name)

/-- Schema fragments for a list of fields, in order; with `safe` set, a
field whose kind lacks the full round-trip guarantee is rejected. -/
def schemaFields (safe : Bool) : List PField → Except SerError (List (String × FSchema))
  | [] => .ok []
  | f :: fs =>
      if safe && !kindSafe f.kind then .error (.unsupportedField f.name)
      else
        match schemaField f with
        | .error e => .error e
        | .ok s =>
            match schemaFields safe fs with
            | .error e => .error e
            | .ok rest => .ok ((f.name, s) :: rest)

/-- Modelled from the spec: the `schema` operation of the interchange codec
— per-field constraint descriptions compatible with a JSON-Schema
`properties` entry; `subset` restricts the field set with unknown names
rejected first; `safe` additionally requires the round-trip guarantee. -/
def schema (cls : PClass) (subset : Option (List String)) (safe : Bool) :
    Except SerError (List (String × FSchema)) :=
  match subset with
  | none => schemaFields safe cls.fields
  | some ns =>
      match firstUnknown cls ns with
      | some n => .error (.unknownField n)
      | none => schemaFields safe (selectedFields cls (some ns))

/-- Lookup of a field's schema fragment in a `properties` mapping. -/
def lookupFSchema : List (String × FSchema) → String → Option FSchema
  | [], _ => none
  | (m, s) :: rest, n => if m = n then some s else lookupFSchema rest n

/-- Modelled from the spec: JSON-Schema validation of a parsed instance
against the document with the given `properties` — the value must be an
object, and every entry naming a listed property must satisfy that
property's fragment. -/
def jsonschema_validate (props : List (String × FSchema)) : JValue → Bool
  | .jobj entries =>
      entries.all (fun e =>
        match lookupFSchema props e.1 with
        | some s => validateFSchema s e.2
        | none => true)
  | _ => false

/-- Snapshot blob: the identifying path of the instance's type (not its
source code), the captured field values, and the captured non-field
attributes. -/
structure Blob where
  typePath : String
  fieldVals : List (String × PValue)
  attrs : List (String × PValue)
deriving DecidableEq

/-- Errors of the snapshot codec. -/
inductive PickleError where
  | typeResolutionError (path : String)
deriving DecidableEq

/-- Type registry used at snapshot decode time: the loaded types, keyed by
their identifying path. -/
def lookupClass : List (String × PClass) → String → Option PClass
  | [], _ => none
  | (p, c) :: rest, n => if p = n then some c else lookupClass rest n

/-- Modelled from the spec: snapshot encode — captures every field value
except those whose declaration opts out via `pickle_default_value = false`,
plus every non-field attribute, recording the identifying path of the
instance's type. -/
def pickle_dump (inst : PInstance) : Blob :=
  { typePath := inst.cls.path,
    fieldVals := inst.cls.fields.filterMap
      (fun f => if f.pickle_default_value then some (f.name, currentValue inst f) else none),
    attrs := inst.attrs }

/-- Modelled from the spec: snapshot decode — resolves the recorded type
path against the loaded types and rebuilds the instance; a path that no
longer resolves raises `TypeResolutionError` rather than being silently
recovered.  A field absent from the blob falls back to the type-level
default. -/
def pickle_load (registry : List (String × PClass)) (blob : Blob) :
    Except PickleError PInstance :=
  match lookupClass registry blob.typePath with
  | none => .error (.typeResolutionError blob.typePath)
  | some cls => .ok { cls := cls, vals := blob.fieldVals, attrs := blob.attrs }

/-- Options of the regeneration emitter.  `pre` models the indentation
argument of the source API (its original name is a reserved token here). -/
structure ReprOptions where
  suppress_defaults : Bool
  qualify : Bool
  pre : String
  separator : String
  show_imports : Bool
deriving DecidableEq

/-- Textual rendering of a scalar value for the regeneration emitter. -/
def reprSVal : SVal → String
  | .snull => "None"
  | .sbool true => "True"
  | .sbool false => "False"
  | .sint n => toString n
  | .snum q => toString q
  | .sstr s => "\"" ++ s ++ "\""
  | .sdate t => "datetime(" ++ toString t ++ ")"

/-- Textual rendering of a parameter value for the regeneration emitter:
intervals render as fixed-size tuples, lists as sequence literals, nested
structured objects as constructor calls on their type path. -/
def reprValue : PValue → String
  | .vnull => "None"
  | .vbool true => "True"
  | .vbool false => "False"
  | .vint n => toString n
  | .vnum q => toString q
  | .vstr s => "\"" ++ s ++ "\""
  | .vdate t => "datetime(" ++ toString t ++ ")"
  | .vrange x y => "(" ++ toString x ++ ", " ++ toString y ++ ")"
  | .vlist xs => "[" ++ String.intercalate ", " (xs.map reprSVal) ++ "]"
  | .vtab cols rows =>
      "DataFrame(columns=[" ++ String.intercalate ", " (cols.map (fun c => "\"" ++ c ++ "\"")) ++
      "], data=[" ++
      String.intercalate ", "
        (rows.map (fun r => "[" ++ String.intercalate ", " (r.map reprSVal) ++ "]")) ++ "])"
  | .vobj p => p ++ "()"

/-- Modelled from the spec: the inclusion rule of the regeneration emitter
— with default suppression on, a field is emitted only if its current
value differs from the type-level default, except that a field flagged
"always treat as instance-owned" (`instantiate`) is always emitted; with
suppression off, every declared field is emitted. -/
def includeField (suppress : Bool) (inst : PInstance) (f : PField) : Bool :=
  !suppress || f.instantiate || decide (currentValue inst f ≠ f.default)

/-- Fields emitted by the regeneration emitter, in declaration order. -/
def script_repr_args (inst : PInstance) (suppress : Bool) : List PField :=
  inst.cls.fields.filter (includeField suppress inst)

/-- Modelled from the spec: the regeneration emitter — a constructor-call
expression for the instance's type with one keyword argument per included
field, in declaration order; `qualify` controls dotting the type name with
its namespace path, and `show_imports` optionally prepends an import-style
line for that path. -/
def script_repr (inst : PInstance) (opts : ReprOptions) : String :=
  let args := script_repr_args inst opts.suppress_defaults
  let argStrs := args.map (fun f => f.name ++ "=" ++ reprValue (currentValue inst f))
  let tname := if opts.qualify then inst.cls.path ++ "." ++ inst.cls.name else inst.cls.name
  let header :=
    if opts.show_imports && opts.qualify then "import " ++ inst.cls.path ++ "\n\n" else ""
  header ++ tname ++ "(" ++
    String.intercalate ("," ++ opts.separator ++ opts.pre) argStrs ++ ")"

/-- Bounded integer field `a` of the walkthrough class `P`: default 5,
bounds [2, 30), inclusive below and exclusive above. -/
def aField : PField :=
  ⟨"a", .kint (some 2) (some 30) true false, .vint 5, false, true, false⟩

/-- Integer-list field `e` of the walkthrough class `P`. -/
def eField : PField :=
  ⟨"e", .klist (some .eint), .vlist [.sint 1, .sint 2, .sint 3], false, true, false⟩

/-- Date field `g` of the walkthrough class `P`. -/
def gField : PField :=
  ⟨"g", .kdate, .vdate 1700000000, false, true, false⟩

/-- Range field `l` of the walkthrough class `P`: default (1.1, 2.3). -/
def lField : PField :=
  ⟨"l", .krange none none true true, .vrange 1.1 2.3, false, true, false⟩

/-- Nullable string field `m` of the walkthrough class `P`: default "baz". -/
def mField : PField :=
  ⟨"m", .kstr, .vstr "baz", true, true, false⟩

/-- Tabular field `s` of the walkthrough class `P`: a two-column data
frame. -/
def sField : PField :=
  ⟨"s", .ktab,
   .vtab ["A", "B"] [[.sint 1, .snum 1.1], [.sint 2, .snum 2.2], [.sint 3, .snum 3.3]],
   false, true, false⟩

/-- The walkthrough class `P` of the notebook's JSON section, with fields
of every supported interchange kind. -/
def Pcls : PClass :=
  ⟨"__main__", "P", [aField, eField, gField, lField, mField, sField]⟩

/-- The walkthrough instance `p = P(a=29)`. -/
def pInst : PInstance :=
  ⟨Pcls, [("a", .vint 29)], []⟩

/-- Nested structured-object field `o` (ClassSelector-like). -/
def oField : PField :=
  ⟨"o", .knested, .vnull, true, true, false⟩

/-- A class declaring a scalar field and a nested structured-object
field. -/
def Ncls : PClass :=
  ⟨"__main__", "A", [aField, oField]⟩

/-- An instance of the nested-field class, holding a nested object in `o`. -/
def nInst : PInstance :=
  ⟨Ncls, [("o", .vobj "__main__.Q")], []⟩

/-- Numeric field `n` of the snapshot example class. -/
def nField : PField :=
  ⟨"n", .knum none none true true, .vnum 39, false, true, false⟩

/-- File-path-like string field flagged `pickle_default_value = false`, so
it is excluded from snapshots. -/
def fpField : PField :=
  ⟨"fp", .kstr, .vstr "", false, false, false⟩

/-- Snapshot example class defined in the importable module `mymod`. -/
def Acls : PClass :=
  ⟨"mymod.A", "A", [nField, fpField]⟩

/-- Snapshot example instance with both fields set away from their defaults
and one non-field attribute. -/
def aInst : PInstance :=
  ⟨Acls, [("n", .vnum 5), ("fp", .vstr "/tmp/x")], [("timestamp", .vnum 123)]⟩

/-- Type registry in which the snapshot example class resolves. -/
def regA : List (String × PClass) :=
  [("mymod.A", Acls)]

/-- Class with only the range field `l`, for the paired-bound scenario. -/
def Rcls : PClass :=
  ⟨"__main__", "R", [lField]⟩

/-- Default instance of the range-field class, holding (1.1, 2.3). -/
def rInst : PInstance :=
  ⟨Rcls, [], []⟩

/-- Scalar decoding inverts scalar encoding. -/
theorem decodeSVal_encodeSVal (s : SVal) : decodeSVal (encodeSVal s) = some s := by
  cases s <;> rfl

/-- Scalar-list decoding inverts elementwise scalar encoding. -/
theorem decodeSList_map_encode (xs : List SVal) :
    decodeSList (xs.map encodeSVal) = some xs := by
  induction xs with
  | nil => rfl
  | cons x xs ih => simp [decodeSList, decodeSVal_encodeSVal, ih]

/-- String-list decoding inverts elementwise string encoding. -/
theorem decodeStrList_map (cs : List String) :
    decodeStrList (cs.map JValue.jstr) = some cs := by
  induction cs with
  | nil => rfl
  | cons c cs ih => simp [decodeStrList, ih]

/-- Row decoding inverts rowwise cell encoding. -/
theorem decodeRows_map (rows : List (List SVal)) :
    decodeRows (rows.map (fun r => .jarr (r.map encodeSVal))) = some rows := by
  induction rows with
  | nil => rfl
  | cons r rows ih => simp [decodeRows, decodeSList_map_encode, ih]

/-- Null decodes to the null value under every declared kind. -/
theorem decodeRaw_jnull (k : PKind) : decodeRaw k .jnull = some .vnull := by
  cases k <;> rfl

/-- Per-field round-trip: a value of a supported kind that satisfies its
field's constraints encodes to a JSON value that decodes back to exactly
that value. -/
theorem encode_decode_field (f : PField) (v : PValue)
    (hs : kindSupported f.kind = true) (hv : validateField f v = true) :
    ∃ j, encodeVal v = some j ∧ decodeField f j = .ok v := by
  obtain ⟨n, k, d, an, pk, it⟩ := f
  cases v with
  | vnull =>
      refine ⟨.jnull, rfl, ?_⟩
      simp only [validateField] at hv
      simp [decodeField, decodeRaw_jnull, validateField, hv]
  | vbool b =>
      simp only [validateField] at hv
      cases k <;> try simp [validateKind] at hv
      exact ⟨.jbool b, rfl, by simp [decodeField, decodeRaw, validateField, validateKind]⟩
  | vint m =>
      simp only [validateField] at hv
      cases k <;> try simp [validateKind] at hv
      case kint lo hi a b =>
        exact ⟨.jint m, rfl, by simp [decodeField, decodeRaw, validateField, validateKind, hv]⟩
      case knum lo hi a b =>
        exact ⟨.jint m, rfl, by simp [decodeField, decodeRaw, validateField, validateKind, hv]⟩
  | vnum q =>
      simp only [validateField] at hv
      cases k <;> try simp [validateKind] at hv
      case knum lo hi a b =>
        exact ⟨.jnum q, rfl, by simp [decodeField, decodeRaw, validateField, validateKind, hv]⟩
  | vstr s =>
      simp only [validateField] at hv
      cases k <;> try simp [validateKind] at hv
      exact ⟨.jstr s, rfl, by simp [decodeField, decodeRaw, validateField, validateKind]⟩
  | vdate t =>
      simp only [validateField] at hv
      cases k <;> try simp [validateKind] at hv
      exact ⟨.jdate t, rfl, by simp [decodeField, decodeRaw, validateField, validateKind]⟩
  | vrange x y =>
      simp only [validateField] at hv
      cases k <;> try simp [validateKind] at hv
      case krange lo hi a b =>
        exact ⟨.jarr [.jnum x, .jnum y], rfl,
          by simp [decodeField, decodeRaw, validateField, validateKind, hv]⟩
  | vlist xs =>
      simp only [validateField] at hv
      cases k <;> try simp [validateKind] at hv
      case klist item =>
        cases item with
        | none =>
            exact ⟨.jarr (xs.map encodeSVal), rfl,
              by simp [decodeField, decodeRaw, decodeSList_map_encode, validateField,
                validateKind]⟩
        | some ek =>
            simp [validateKind] at hv
            refine ⟨.jarr (xs.map encodeSVal), rfl, ?_⟩
            simp [decodeField, decodeRaw, decodeSList_map_encode, validateField, validateKind]
            exact hv
  | vtab cols rows =>
      simp only [validateField] at hv
      cases k <;> try simp [validateKind] at hv
      exact ⟨_, rfl, by
        simp [decodeField, decodeRaw, decodeStrList_map, decodeRows_map, validateField,
          validateKind]⟩
  | vobj p =>
      simp only [validateField] at hv
      cases k <;> try simp [validateKind] at hv
      simp [kindSupported] at hs

/-- Per-field encoding succeeds on a supported, constraint-satisfying
current value, and its output decodes back to that value. -/
theorem encodeField_ok (inst : PInstance) (f : PField)
    (hs : kindSupported f.kind = true)
    (hv : validateField f (currentValue inst f) = true) :
    ∃ j, encodeField inst f = .ok j ∧ decodeField f j = .ok (currentValue inst f) := by
  obtain ⟨j, hj, hd⟩ := encode_decode_field f (currentValue inst f) hs hv
  exact ⟨j, by simp [encodeField, hs, hj], hd⟩

/-- Every failure of per-field encoding is an `UnsupportedFieldError`
naming the field. -/
theorem encodeField_error (inst : PInstance) (f : PField) (e : SerError)
    (h : encodeField inst f = .error e) : e = .unsupportedField f.name := by
  unfold encodeField at h
  split at h
  · cases hj : encodeVal (currentValue inst f) <;> rw [hj] at h <;> simp_all
  · simp_all

/-- Among fields with pairwise distinct names, searching for a member
field's name finds that field. -/
theorem find_name_nodup (f : PField) :
    ∀ l : List PField, (l.map PField.name).Nodup → f ∈ l →
      l.find? (fun g => g.name = f.name) = some f := by
  intro l
  induction l with
  | nil => simp
  | cons g t ih =>
      intro hnd hm
      simp only [List.map_cons, List.nodup_cons] at hnd
      rcases List.mem_cons.mp hm with h | h
      · subst h
        simp [List.find?]
      · have hne : g.name ≠ f.name := by
          intro he
          exact hnd.1 (he ▸ List.mem_map_of_mem PField.name h)
        rw [List.find?]
        simp only [hne, decide_eq_true_eq, if_neg]
        exact ih hnd.2 h

/-- Among fields with pairwise distinct names, a declared field is found
under its own name. -/
theorem findField_self (cls : PClass) (f : PField)
    (hnd : (cls.fields.map PField.name).Nodup) (hm : f ∈ cls.fields) :
    findField cls f.name = some f :=
  find_name_nodup f cls.fields hnd hm

/-- Round-trip over a field list: supported, constraint-satisfying fields
encode to entries that decode back to exactly the current values. -/
theorem roundtrip_fields (inst : PInstance) (cls : PClass) :
    ∀ fs : List PField,
      (∀ f ∈ fs, findField cls f.name = some f) →
      (∀ f ∈ fs, kindSupported f.kind = true) →
      (∀ f ∈ fs, validateField f (currentValue inst f) = true) →
      ∃ js, encodeFields inst fs = .ok js ∧
        decodeEntries cls js = .ok (fs.map (fun f => (f.name, currentValue inst f))) := by
  intro fs
  induction fs with
  | nil => exact fun _ _ _ => ⟨[], rfl, rfl⟩
  | cons f t ih =>
      intro hf hs hv
      obtain ⟨j, hj, hd⟩ := encodeField_ok inst f (hs f (by simp)) (hv f (by simp))
      obtain ⟨js, hjs, hds⟩ := ih (fun g hg => hf g (by simp [hg]))
        (fun g hg => hs g (by simp [hg])) (fun g hg => hv g (by simp [hg]))
      refine ⟨(f.name, j) :: js, ?_, ?_⟩
      · simp [encodeFields, hj, hjs]
      · simp [decodeEntries, hf f (by simp), hd, hds]

/-- C1: for every instance of a type whose declared fields are all of
supported interchange kinds (and whose stored values satisfy their
declared constraints, the spec's standing invariant), deserializing the
serialized text yields exactly the mapping from each field name to that
instance's current field value — pairwise for intervals, elementwise for
lists, cell-by-cell with column labels for tabular data, and with exact
timestamps for dates, all captured by structural value equality. -/
theorem serialize_roundtrip (inst : PInstance)
    (hnd : (inst.cls.fields.map PField.name).Nodup)
    (hsup : ∀ f ∈ inst.cls.fields, kindSupported f.kind = true)
    (hval : ∀ f ∈ inst.cls.fields, validateField f (currentValue inst f) = true) :
    ∃ js, serialize_parameters inst none = .ok js ∧
      deserialize_parameters inst.cls js none =
        .ok (inst.cls.fields.map (fun f => (f.name, currentValue inst f))) := by
  obtain ⟨js, h1, h2⟩ := roundtrip_fields inst inst.cls inst.cls.fields
    (fun f hf => findField_self inst.cls f hnd hf) hsup hval
  exact ⟨js, h1, h2⟩

/-- C1 witness: the walkthrough instance `P(a=29)` with fields of every
supported kind satisfies the round-trip contract. -/
theorem serialize_roundtrip_witness :
    ∃ js, serialize_parameters pInst none = .ok js ∧
      deserialize_parameters pInst.cls js none =
        .ok (pInst.cls.fields.map (fun f => (f.name, currentValue pInst f))) :=
  serialize_roundtrip pInst (by decide) (by decide) (by decide)

/-- C3: deserialization is type-directed by the declared field kind — for
a range field whose value is the pair (1.1, 2.3), serialize encodes it as
the two-element JSON sequence [1.1, 2.3], and deserialize converts that
sequence back to the paired-bound form, not a two-element list. -/
theorem range_field_type_directed :
    serialize_parameters rInst none = .ok [("l", .jarr [.jnum 1.1, .jnum 2.3])] ∧
    deserialize_parameters Rcls [("l", .jarr [.jnum 1.1, .jnum 2.3])] none =
      .ok [("l", .vrange 1.1 2.3)] :=
  ⟨rfl, rfl⟩

/-- Values accepted by a field decode satisfy the field's constraint
check. -/
theorem decodeField_ok_valid (f : PField) (j : JValue) (v : PValue)
    (h : decodeField f j = .ok v) : validateField f v = true := by
  unfold decodeField at h
  cases hr : decodeRaw f.kind j <;> rw [hr] at h
  · simp at h
  · rename_i w
    simp only [] at h
    by_cases hw : validateField f w = true
    · rw [if_pos hw] at h
      injection h with h2
      subst h2
      exact hw
    · rw [if_neg hw] at h
      simp at h

/-- Every mapping entry returned by deserialization names a declared field
and satisfies that field's constraints. -/
theorem decodeEntries_valid (cls : PClass) :
    ∀ (entries : List (String × JValue)) (out : List (String × PValue)),
      decodeEntries cls entries = .ok out →
      ∀ n v, (n, v) ∈ out →
        ∃ f, findField cls n = some f ∧ validateField f v = true := by
  intro entries
  induction entries with
  | nil =>
      intro out h n v hm
      simp only [decodeEntries] at h
      injection h with h2
      subst h2
      simp at hm
  | cons e rest ih =>
      intro out h n v hm
      obtain ⟨m, j⟩ := e
      simp only [decodeEntries] at h
      cases hf : findField cls m <;> rw [hf] at h
      · simp at h
      · rename_i f'
        simp only [] at h
        cases hd : decodeField f' j <;> rw [hd] at h
        · simp at h
        · rename_i w
          cases hr : decodeEntries cls rest <;> rw [hr] at h
          · simp at h
          · rename_i vs
            injection h with h2
            subst h2
            rcases List.mem_cons.mp hm with hhead | htail
            · cases hhead
              exact ⟨f', hf, decodeField_ok_valid f' j _ hd⟩
            · exact ih _ hr n v htail

/-- C4: the deserialization path validates every decoded value against the
field's declared constraints before it enters the returned mapping, and a
decoded value failing its constraint is rejected with `ValidationError`
carrying the field name and the violated constraint, not silently
coerced. -/
theorem deserialize_validates :
    (∀ (cls : PClass) (entries : List (String × JValue)) (out : List (String × PValue)),
      deserialize_parameters cls entries none = .ok out →
      ∀ n v, (n, v) ∈ out →
        ∃ f, findField cls n = some f ∧ validateField f v = true) ∧
    (∀ (f : PField) (j : JValue) (v : PValue),
      decodeRaw f.kind j = some v → validateField f v = false →
      decodeField f j = .error (.validationError f.name f.kind)) := by
  constructor
  · intro cls entries out h
    exact decodeEntries_valid cls entries out h
  · intro f j v hr hv
    unfold decodeField
    rw [hr]
    simp [hv]

/-- C4 witness: decoding the out-of-bounds integer 99 for the bounded
integer field `a` (bounds [2, 30)) is rejected with a `ValidationError`
naming the field and its constraint. -/
theorem deserialize_validates_witness :
    decodeField aField (.jint 99) = .error (.validationError "a" aField.kind) :=
  deserialize_validates.2 aField (.jint 99) (.vint 99) rfl rfl

/-- Per-field encoding only succeeds on supported kinds. -/
theorem encodeField_ok_supported (inst : PInstance) (f : PField) (j : JValue)
    (h : encodeField inst f = .ok j) : kindSupported f.kind = true := by
  unfold encodeField at h
  by_cases hs : kindSupported f.kind = true
  · exact hs
  · rw [if_neg hs] at h
    simp at h

/-- Field-list encoding fails with an `UnsupportedFieldError` whenever some
processed field's kind has no interchange encoding. -/
theorem encodeFields_error_of_unsupported (inst : PInstance) :
    ∀ fs : List PField, (∃ f ∈ fs, kindSupported f.kind = false) →
      ∃ g, encodeFields inst fs = .error (.unsupportedField g) := by
  intro fs
  induction fs with
  | nil => rintro ⟨f, hf, _⟩; simp at hf
  | cons f t ih =>
      rintro ⟨w, hw, hwk⟩
      cases he : encodeField inst f with
      | error e =>
          refine ⟨f.name, ?_⟩
          have := encodeField_error inst f e he
          subst this
          simp [encodeFields, he]
      | ok j =>
          have hft : w ∈ t := by
            rcases List.mem_cons.mp hw with rfl | h
            · rw [encodeField_ok_supported inst w j he] at hwk
              cases hwk
            · exact h
          obtain ⟨g, hg⟩ := ih ⟨w, hft, hwk⟩
          exact ⟨g, by simp [encodeFields, he, hg]⟩

/-- Field-list encoding succeeds when every processed field is of a
supported kind and its current value satisfies its constraints. -/
theorem encodeFields_ok_of_all (inst : PInstance) :
    ∀ fs : List PField,
      (∀ f ∈ fs, kindSupported f.kind = true ∧ validateField f (currentValue inst f) = true) →
      ∃ js, encodeFields inst fs = .ok js := by
  intro fs
  induction fs with
  | nil => exact fun _ => ⟨[], rfl⟩
  | cons f t ih =>
      intro hall
      obtain ⟨j, hj, _⟩ := encodeField_ok inst f (hall f (by simp)).1 (hall f (by simp)).2
      obtain ⟨js, hjs⟩ := ih (fun g hg => hall g (by simp [hg]))
      exact ⟨(f.name, j) :: js, by simp [encodeFields, hj, hjs]⟩

/-- Subset screening accepts a subset made of declared names. -/
theorem firstUnknown_none (cls : PClass) :
    ∀ ns : List String, (∀ n ∈ ns, n ∈ declaredNames cls) →
      firstUnknown cls ns = none := by
  intro ns
  induction ns with
  | nil => intro; rfl
  | cons n t ih =>
      intro h
      simp only [firstUnknown, if_pos (h n (by simp))]
      exact ih (fun m hm => h m (by simp [hm]))

/-- Subset screening reports some unknown name whenever the subset holds
one. -/
theorem firstUnknown_some (cls : PClass) :
    ∀ ns : List String, ∀ n ∈ ns, n ∉ declaredNames cls →
      ∃ m, firstUnknown cls ns = some m := by
  intro ns
  induction ns with
  | nil => intro n hn; simp at hn
  | cons k t ih =>
      intro n hn hun
      by_cases hk : k ∈ declaredNames cls
      · have hnt : n ∈ t := by
          rcases List.mem_cons.mp hn with rfl | h
          · exact absurd hk hun
          · exact h
        obtain ⟨m, hm⟩ := ih n hnt hun
        exact ⟨m, by simp [firstUnknown, if_pos hk, hm]⟩
      · exact ⟨k, by simp [firstUnknown, if_neg hk]⟩

/-- C2: a type declaring a nested structured-object field cannot be
serialized — the call fails with `UnsupportedFieldError` — while the same
call succeeds when that field is excluded via `subset` (and the remaining
requested fields are of supported kinds with constraint-satisfying
values). -/
theorem serialize_nested_rejected (inst : PInstance) (f : PField)
    (hf : f ∈ inst.cls.fields) (hk : f.kind = .knested) :
    (∃ g, serialize_parameters inst none = .error (.unsupportedField g)) ∧
    (∀ sub : List String, (∀ n ∈ sub, n ∈ declaredNames inst.cls) →
      (∀ g ∈ inst.cls.fields, g.name ∈ sub →
        kindSupported g.kind = true ∧ validateField g (currentValue inst g) = true) →
      ∃ js, serialize_parameters inst (some sub) = .ok js) := by
  constructor
  · have : kindSupported f.kind = false := by rw [hk]; rfl
    exact encodeFields_error_of_unsupported inst inst.cls.fields ⟨f, hf, this⟩
  · intro sub hdecl hok
    obtain ⟨js, hjs⟩ := encodeFields_ok_of_all inst
      (selectedFields inst.cls (some sub)) (by
        intro g hg
        simp only [selectedFields, List.mem_filter, decide_eq_true_eq] at hg
        exact hok g hg.1 hg.2)
    refine ⟨js, ?_⟩
    simp [serialize_parameters, firstUnknown_none inst.cls sub hdecl, hjs]

/-- C2 witness: the class declaring nested field `o` fails to serialize
with an `UnsupportedFieldError`, and serializes fine with `subset` set to
the sole scalar field. -/
theorem serialize_nested_rejected_witness :
    (∃ g, serialize_parameters nInst none = .error (.unsupportedField g)) ∧
    (∃ js, serialize_parameters nInst (some ["a"]) = .ok js) :=
  ⟨(serialize_nested_rejected nInst oField (by decide) rfl).1,
   (serialize_nested_rejected nInst oField (by decide) rfl).2 ["a"] (by decide) (by decide)⟩

/-- Filtering fields by membership of their name in a singleton subset
keeps exactly the one declared field of that name. -/
theorem filter_name_single (f : PField) :
    ∀ l : List PField, (l.map PField.name).Nodup → f ∈ l →
      l.filter (fun g => g.name ∈ [f.name]) = [f] := by
  intro l
  induction l with
  | nil => simp
  | cons g t ih =>
      intro hnd hm
      simp only [List.map_cons, List.nodup_cons] at hnd
      rcases List.mem_cons.mp hm with h | h
      · subst h
        rw [List.filter_cons_of_pos (by simp)]
        have ht : t.filter (fun g => g.name ∈ [f.name]) = [] := by
          rw [List.filter_eq_nil_iff]
          intro a ha
          simp only [List.mem_singleton, decide_eq_true_eq]
          intro he
          exact hnd.1 (he ▸ List.mem_map_of_mem PField.name ha)
        rw [ht]
      · have hne : g.name ≠ f.name := by
          intro he
          exact hnd.1 (he ▸ List.mem_map_of_mem PField.name h)
        rw [List.filter_cons_of_neg (by simp [hne])]
        exact ih hnd.2 h

/-- C8: requesting `subset = [f]` for a declared field yields a text whose
top-level object holds exactly the one key `f`, while a subset naming any
undeclared field is rejected with `UnknownFieldError` before any encoding
work begins (no supportedness or validity of any field is needed for the
rejection). -/
theorem serialize_subset (inst : PInstance) (f : PField)
    (hnd : (inst.cls.fields.map PField.name).Nodup)
    (hf : f ∈ inst.cls.fields)
    (hs : kindSupported f.kind = true)
    (hv : validateField f (currentValue inst f) = true) :
    (∃ j, serialize_parameters inst (some [f.name]) = .ok [(f.name, j)]) ∧
    (∀ sub : List String, ∀ n ∈ sub, n ∉ declaredNames inst.cls →
      ∃ m, serialize_parameters inst (some sub) = .error (.unknownField m)) := by
  constructor
  · obtain ⟨j, hj, _⟩ := encodeField_ok inst f hs hv
    have hfu : firstUnknown inst.cls [f.name] = none :=
      firstUnknown_none inst.cls [f.name] (by
        intro n hn
        rw [List.mem_singleton.mp hn]
        exact List.mem_map_of_mem PField.name hf)
    have hsel : selectedFields inst.cls (some [f.name]) = [f] := by
      simp only [selectedFields]
      exact filter_name_single f inst.cls.fields hnd hf
    refine ⟨j, ?_⟩
    simp [serialize_parameters, hfu, hsel, encodeFields, hj]
  · intro sub n hn hun
    obtain ⟨m, hm⟩ := firstUnknown_some inst.cls sub n hn hun
    exact ⟨m, by simp [serialize_parameters, hm]⟩

/-- C8 witness: serializing `P(a=29)` with `subset=["a"]` yields exactly
the key "a", and a subset containing the undeclared name "zz" is rejected
with `UnknownFieldError`. -/
theorem serialize_subset_witness :
    (∃ j, serialize_parameters pInst (some ["a"]) = .ok [("a", j)]) ∧
    (∃ m, serialize_parameters pInst (some ["a", "zz"]) = .error (.unknownField m)) :=
  ⟨(serialize_subset pInst aField (by decide) (by decide) (by decide) (by decide)).1,
   (serialize_subset pInst aField (by decide) (by decide) (by decide) (by decide)).2
     ["a", "zz"] "zz" (by decide) (by decide)⟩

/-- Association-list lookup misses names absent from the key list. -/
theorem lookupVal_eq_none :
    ∀ (l : List (String × PValue)) (x : String), x ∉ l.map Prod.fst →
      lookupVal l x = none := by
  intro l
  induction l with
  | nil => intro x _; rfl
  | cons e t ih =>
      intro x hx
      obtain ⟨m, v⟩ := e
      simp only [List.map_cons, List.mem_cons] at hx
      push_neg at hx
      simp only [lookupVal, if_neg (Ne.symm hx.1)]
      exact ih x hx.2

/-- The snapshot blob's keys are exactly the names of fields not opting
out; a member field's name appears among them only if some declared field
of the same name has the flag set. -/
theorem mem_pickle_keys (inst : PInstance) (x : String) :
    x ∈ (pickle_dump inst).fieldVals.map Prod.fst ↔
      ∃ g ∈ inst.cls.fields, g.pickle_default_value = true ∧ g.name = x := by
  simp only [pickle_dump, List.map_filterMap, List.mem_filterMap]
  constructor
  · rintro ⟨g, hg, hopt⟩
    by_cases hp : g.pickle_default_value = true
    · rw [if_pos hp] at hopt
      simp at hopt
      exact ⟨g, hg, hp, hopt⟩
    · rw [if_neg hp] at hopt
      simp at hopt
  · rintro ⟨g, hg, hp, hx⟩
    exact ⟨g, hg, by rw [if_pos hp]; simp [hx]⟩

/-- Looking a flagged member field's name up in the snapshot blob returns
its captured current value, provided field names are pairwise distinct. -/
theorem lookupVal_pickle (inst : PInstance) :
    ∀ l : List PField, (l.map PField.name).Nodup →
      ∀ g ∈ l, g.pickle_default_value = true →
        lookupVal (l.filterMap
          (fun f => if f.pickle_default_value then some (f.name, currentValue inst f) else none))
          g.name = some (currentValue inst g) := by
  intro l
  induction l with
  | nil => intro _ g hg; simp at hg
  | cons h t ih =>
      intro hnd g hg hp
      simp only [List.map_cons, List.nodup_cons] at hnd
      rcases List.mem_cons.mp hg with rfl | hgt
      · rw [List.filterMap_cons, if_pos hp]
        simp [lookupVal]
      · have hne : h.name ≠ g.name := by
          intro he
          exact hnd.1 (he ▸ List.mem_map_of_mem PField.name hgt)
        rw [List.filterMap_cons]
        by_cases hph : h.pickle_default_value = true
        · rw [if_pos hph]
          simp only [lookupVal, if_neg hne]
          exact ih hnd.2 g hgt hp
        · rw [if_neg hph]
          exact ih hnd.2 g hgt hp

/-- C5: a field flagged non-snapshotting is omitted from the blob on
encode, and after encode followed by decode (in a registry resolving the
type) its value is the type-level default even when the pre-encode value
differed, while every flagged field's captured value and all non-field
attributes are restored. -/
theorem pickle_exclusion (inst : PInstance) (reg : List (String × PClass)) (f : PField)
    (hnd : (inst.cls.fields.map PField.name).Nodup)
    (hf : f ∈ inst.cls.fields)
    (hopt : f.pickle_default_value = false)
    (hreg : lookupClass reg inst.cls.path = some inst.cls) :
    f.name ∉ (pickle_dump inst).fieldVals.map Prod.fst ∧
    ∃ inst2, pickle_load reg (pickle_dump inst) = .ok inst2 ∧
      currentValue inst2 f = f.default ∧
      (∀ g ∈ inst.cls.fields, g.pickle_default_value = true →
        currentValue inst2 g = currentValue inst g) ∧
      inst2.attrs = inst.attrs := by
  have hkeys : f.name ∉ (pickle_dump inst).fieldVals.map Prod.fst := by
    rw [mem_pickle_keys]
    rintro ⟨g, hg, hp, hname⟩
    have : g = f := List.inj_on_of_nodup_map hnd hg hf hname
    rw [this, hopt] at hp
    cases hp
  refine ⟨hkeys, ⟨inst.cls, (pickle_dump inst).fieldVals, (pickle_dump inst).attrs⟩, ?_, ?_, ?_, rfl⟩
  · simp [pickle_load, pickle_dump, hreg]
  · simp only [currentValue, lookupVal_eq_none _ _ hkeys, Option.getD_none]
  · intro g hg hp
    have hl := lookupVal_pickle inst inst.cls.fields hnd g hg hp
    unfold currentValue
    rw [show (pickle_dump inst).fieldVals = inst.cls.fields.filterMap
      (fun f => if f.pickle_default_value then some (f.name, currentValue inst f) else none)
      from rfl, hl]
    rfl

/-- C5 witness: the snapshot example instance, whose field `fp` is flagged
non-snapshotting and set away from its default, omits `fp` from the blob
and restores it to the type default on decode, while restoring `n` and the
`timestamp` attribute. -/
theorem pickle_exclusion_witness :
    "fp" ∉ (pickle_dump aInst).fieldVals.map Prod.fst ∧
    ∃ inst2, pickle_load regA (pickle_dump aInst) = .ok inst2 ∧
      currentValue inst2 fpField = fpField.default ∧
      (∀ g ∈ aInst.cls.fields, g.pickle_default_value = true →
        currentValue inst2 g = currentValue aInst g) ∧
      inst2.attrs = aInst.attrs :=
  pickle_exclusion aInst regA fpField (by decide) (by decide) rfl rfl

/-- C6: snapshot encode succeeds unconditionally (it is a total function of
the instance), and decoding its blob raises `TypeResolutionError` whenever
the recorded type path no longer resolves to a loaded type. -/
theorem pickle_resolution_failure (inst : PInstance) (reg : List (String × PClass))
    (h : lookupClass reg inst.cls.path = none) :
    pickle_load reg (pickle_dump inst) = .error (.typeResolutionError inst.cls.path) := by
  simp [pickle_load, pickle_dump, h]

/-- C6 witness: decoding the snapshot of the example instance in a session
where its type path resolves to nothing raises `TypeResolutionError`. -/
theorem pickle_resolution_failure_witness :
    pickle_load [] (pickle_dump aInst) = .error (.typeResolutionError "mymod.A") :=
  pickle_resolution_failure aInst [] rfl

/-- C7: with default suppression on, the emitter includes a declared field
in the constructor-call argument list exactly when its current value
differs from the type-level default or it is flagged "always treat as
instance-owned" (`instantiate`); with suppression off, every declared
field is included. -/
theorem script_repr_suppress (inst : PInstance) (f : PField) :
    (f ∈ script_repr_args inst true ↔
      f ∈ inst.cls.fields ∧ (currentValue inst f ≠ f.default ∨ f.instantiate = true)) ∧
    script_repr_args inst false = inst.cls.fields := by
  constructor
  · rw [script_repr_args, List.mem_filter]
    simp [includeField, or_comm]
  · rw [script_repr_args]
    simp [includeField]

/-- C9: the emitter is deterministic — two calls on an unmodified instance
with identical option values produce byte-identical output text — and the
names of the emitted fields appear in declaration order (the inclusion
filter preserves the declared sequence). -/
theorem script_repr_deterministic (i1 i2 : PInstance) (o1 o2 : ReprOptions)
    (hi : i1 = i2) (ho : o1 = o2) :
    script_repr i1 o1 = script_repr i2 o2 ∧
    ((script_repr_args i1 o1.suppress_defaults).map PField.name).Sublist
      (i1.cls.fields.map PField.name) := by
  subst hi
  subst ho
  exact ⟨rfl, (List.filter_sublist _).map PField.name⟩

/-- C9 witness: two emit calls on the walkthrough instance with the default
options produce identical text, and the emitted names follow declaration
order. -/
theorem script_repr_deterministic_witness :
    script_repr pInst ⟨true, true, "\n    ", "\n", true⟩ =
      script_repr pInst ⟨true, true, "\n    ", "\n", true⟩ ∧
    ((script_repr_args pInst true).map PField.name).Sublist
      (pInst.cls.fields.map PField.name) :=
  script_repr_deterministic pInst pInst ⟨true, true, "\n    ", "\n", true⟩
    ⟨true, true, "\n    ", "\n", true⟩ rfl rfl

/-- Boolean all over a mapped list computes pointwise on the original. -/
theorem all_map_comp {α β : Type} (l : List α) (f : α → β) (p : β → Bool) :
    (l.map f).all p = l.all (fun a => p (f a)) := by
  induction l with
  | nil => rfl
  | cons a t ih => simp [List.all_cons, ih]

/-- Scalar encodings are JSON scalars. -/
theorem encodeSVal_scalar (s : SVal) : isScalarJ (encodeSVal s) = true := by
  cases s <;> rfl

/-- An element satisfying a list's element-type constraint encodes to a
JSON value satisfying that constraint's schema fragment. -/
theorem elem_matches_schema (ek : SKind) (s : SVal)
    (h : elemMatches ek s = true) :
    validateScalarSchema (elemSchema ek) (encodeSVal s) = true := by
  cases ek <;> cases s <;> simp_all [elemMatches, elemSchema, encodeSVal,
    validateScalarSchema, intBoundsOk, ratBoundsOk]

/-- Tabular schema validation computes the shape checks of its column and
row lists. -/
theorem validateSchema_sTab (cs rs : List JValue) :
    validateSchema .sTab (.jobj [("columns", .jarr cs), ("data", .jarr rs)]) =
      (cs.all (fun c => match c with | .jstr _ => true | _ => false) &&
       rs.all (fun r => match r with | .jarr cells => cells.all isScalarJ | _ => false)) :=
  rfl

/-- A supported, constraint-satisfying field value encodes to a JSON value
that validates against the field's own schema fragment. -/
theorem encode_matches_schema (f : PField) (v : PValue) (j : JValue)
    (hs : kindSupported f.kind = true) (hv : validateField f v = true)
    (hj : encodeVal v = some j) :
    ∃ s, schemaField f = .ok s ∧ validateFSchema s j = true := by
  obtain ⟨n, k, d, an, pk, it⟩ := f
  cases v with
  | vnull =>
      simp only [encodeVal] at hj
      injection hj with hj
      subst hj
      simp only [validateField] at hv
      cases k <;> simp [kindSupported] at hs
      case klist item =>
        cases item with
        | none => exact ⟨_, rfl, by simp [validateFSchema, hv]⟩
        | some ek => exact ⟨_, rfl, by simp [validateFSchema, hv]⟩
      all_goals exact ⟨_, rfl, by simp [validateFSchema, hv]⟩
  | vbool b =>
      simp only [encodeVal] at hj
      injection hj with hj
      subst hj
      simp only [validateField] at hv
      cases k <;> try simp [validateKind] at hv
      exact ⟨_, rfl, rfl⟩
  | vint m =>
      simp only [encodeVal] at hj
      injection hj with hj
      subst hj
      simp only [validateField] at hv
      cases k <;> try simp [validateKind] at hv
      case kint lo hi a b => exact ⟨_, rfl, by simpa using hv⟩
      case knum lo hi a b => exact ⟨_, rfl, by simpa using hv⟩
  | vnum q =>
      simp only [encodeVal] at hj
      injection hj with hj
      subst hj
      simp only [validateField] at hv
      cases k <;> try simp [validateKind] at hv
      case knum lo hi a b => exact ⟨_, rfl, by simpa using hv⟩
  | vstr s =>
      simp only [encodeVal] at hj
      injection hj with hj
      subst hj
      simp only [validateField] at hv
      cases k <;> try simp [validateKind] at hv
      exact ⟨_, rfl, rfl⟩
  | vdate t =>
      simp only [encodeVal] at hj
      injection hj with hj
      subst hj
      simp only [validateField] at hv
      cases k <;> try simp [validateKind] at hv
      exact ⟨_, rfl, rfl⟩
  | vrange x y =>
      simp only [encodeVal] at hj
      injection hj with hj
      subst hj
      simp only [validateField] at hv
      cases k <;> try simp [validateKind] at hv
      case krange lo hi a b =>
        refine ⟨_, rfl, ?_⟩
        show (ratBoundsOk lo hi a b x && ratBoundsOk lo hi a b y) = true
        simp [hv.1, hv.2]
  | vlist xs =>
      simp only [encodeVal] at hj
      injection hj with hj
      subst hj
      simp only [validateField] at hv
      cases k <;> try simp [validateKind] at hv
      case klist item =>
        cases item with
        | none => exact ⟨_, rfl, rfl⟩
        | some ek =>
            simp [validateKind] at hv
            refine ⟨_, rfl, ?_⟩
            show (xs.map encodeSVal).all (validateScalarSchema (elemSchema ek)) = true
            rw [all_map_comp]
            simp only [List.all_eq_true]
            intro x hx
            exact elem_matches_schema ek x (hv x hx)
  | vtab cols rows =>
      simp only [encodeVal] at hj
      injection hj with hj
      subst hj
      simp only [validateField] at hv
      cases k <;> try simp [validateKind] at hv
      refine ⟨_, rfl, ?_⟩
      show validateFSchema ⟨an, .sTab⟩
        (.jobj [("columns", .jarr (cols.map JValue.jstr)),
                ("data", .jarr (rows.map (fun r => .jarr (r.map encodeSVal))))]) = true
      rw [show validateFSchema ⟨an, .sTab⟩
        (.jobj [("columns", .jarr (cols.map JValue.jstr)),
                ("data", .jarr (rows.map (fun r => .jarr (r.map encodeSVal))))]) =
        validateSchema .sTab
          (.jobj [("columns", .jarr (cols.map JValue.jstr)),
                  ("data", .jarr (rows.map (fun r => .jarr (r.map encodeSVal))))]) from rfl,
        validateSchema_sTab, all_map_comp, all_map_comp]
      simp only [Bool.and_eq_true, List.all_eq_true]
      constructor
      · intro c hc
        trivial
      · intro r hr x hx
        obtain ⟨c, hc, rfl⟩ := List.mem_map.mp hx
        exact encodeSVal_scalar c
  | vobj p =>
      simp only [encodeVal] at hj
      cases hj

/-- Successful field-list encoding emits exactly the processed field
names, in order. -/
theorem encodeFields_names (inst : PInstance) :
    ∀ (fs : List PField) (js : List (String × JValue)),
      encodeFields inst fs = .ok js → js.map Prod.fst = fs.map PField.name := by
  intro fs
  induction fs with
  | nil =>
      intro js h
      simp only [encodeFields] at h
      injection h with h2
      subst h2
      rfl
  | cons f t ih =>
      intro js h
      simp only [encodeFields] at h
      cases he : encodeField inst f <;> rw [he] at h
      · simp at h
      · cases hr : encodeFields inst t <;> rw [hr] at h
        · simp at h
        · injection h with h2
          subst h2
          simp [ih _ hr]

/-- Field-list encoding and schema generation agree: for fields of
supported kinds with constraint-satisfying values and distinct names, the
encoded object validates against the generated per-field schemas. -/
theorem serialize_schema_fields (inst : PInstance) :
    ∀ fs : List PField, (fs.map PField.name).Nodup →
      (∀ f ∈ fs, kindSupported f.kind = true ∧
        validateField f (currentValue inst f) = true) →
      ∃ js props, encodeFields inst fs = .ok js ∧ schemaFields false fs = .ok props ∧
        jsonschema_validate props (.jobj js) = true := by
  intro fs
  induction fs with
  | nil => exact fun _ _ => ⟨[], [], rfl, rfl, rfl⟩
  | cons f t ih =>
      intro hnd hall
      simp only [List.map_cons, List.nodup_cons] at hnd
      obtain ⟨hs, hv⟩ := hall f (by simp)
      obtain ⟨j, hjval, _⟩ := encode_decode_field f (currentValue inst f) hs hv
      obtain ⟨sch, hsch, hval⟩ := encode_matches_schema f (currentValue inst f) j hs hv hjval
      obtain ⟨js, props, hjs, hprops, hvalid⟩ := ih hnd.2 (fun g hg => hall g (by simp [hg]))
      refine ⟨(f.name, j) :: js, (f.name, sch) :: props, ?_, ?_, ?_⟩
      · simp [encodeFields, encodeField, hs, hjval, hjs]
      · simp [schemaFields, hsch, hprops]
      · simp only [jsonschema_validate, List.all_cons]
        rw [Bool.and_eq_true]
        constructor
        · show (match lookupFSchema ((f.name, sch) :: props) f.name with
              | some s => validateFSchema s j
              | none => true) = true
          simp [lookupFSchema, hval]
        · rw [List.all_eq_true]
          intro e he
          have hne : e.1 ≠ f.name := by
            have hmem : e.1 ∈ js.map Prod.fst := List.mem_map_of_mem Prod.fst he
            rw [encodeFields_names inst t js hjs] at hmem
            intro hEq
            exact hnd.1 (hEq ▸ hmem)
          have hskip : lookupFSchema ((f.name, sch) :: props) e.1 = lookupFSchema props e.1 := by
            simp only [lookupFSchema]
            rw [if_neg (fun he2 => hne he2.symm)]
          have hv2 : ∀ x ∈ js, (match lookupFSchema props x.1 with
              | some s => validateFSchema s x.2
              | none => true) = true := by
            have h3 := hvalid
            simp only [jsonschema_validate] at h3
            rw [List.all_eq_true] at h3
            exact h3
          show (match lookupFSchema ((f.name, sch) :: props) e.1 with
              | some s => validateFSchema s e.2
              | none => true) = true
          rw [hskip]
          exact hv2 e he

/-- C10: for every instance of a type whose declared fields are all of
supported interchange kinds (values satisfying their constraints, names
distinct), the JSON value parsed from serialize(instance) validates
against the JSON-Schema document built from that type's own schema
output, without `safe` mode. -/
theorem serialize_matches_schema (inst : PInstance)
    (hnd : (inst.cls.fields.map PField.name).Nodup)
    (hall : ∀ f ∈ inst.cls.fields, kindSupported f.kind = true ∧
      validateField f (currentValue inst f) = true) :
    ∃ js props, serialize_parameters inst none = .ok js ∧
      schema inst.cls none false = .ok props ∧
      jsonschema_validate props (.jobj js) = true := by
  obtain ⟨js, props, h1, h2, h3⟩ :=
    serialize_schema_fields inst inst.cls.fields hnd hall
  exact ⟨js, props, h1, h2, h3⟩

/-- C10 witness: the walkthrough instance `P(a=29)` serializes to a JSON
object that validates against the schema generated from `P`. -/
theorem serialize_matches_schema_witness :
    ∃ js props, serialize_parameters pInst none = .ok js ∧
      schema pInst.cls none false = .ok props ∧
      jsonschema_validate props (.jobj js) = true :=
  serialize_matches_schema pInst (by decide) (by decide)

end Param
